import Mathlib

/-!
Verification development for the edgeefy Canny edge-detection pipeline
(`canny.go` plus the `GrayPixel` struct from the image I/O file).

Shallow embedding conventions:
* `[][]GrayPixel` becomes `List (List GrayPixel)`; `GrayPixel{y, a uint8}`
  becomes a structure with two `Nat` byte fields.
* Go `int` loop indices that can go negative (mirror sampling) are `Int`;
  coordinates stored in the strong/weak sets are always non-negative in the
  program and are modelled as `Nat` pairs (`image.Point{X, Y}`).
* `float64` values (kernel weights, inner products, thresholds, gradient
  directions) are modelled as exact rationals `ℚ`.  Every concrete input used
  to settle a claim keeps all intermediate float64 values exactly
  representable (dyadic kernels, integer convolution sums far below `2 ^ 53`),
  so the rational model agrees with the float computation there.
* `uint8(f)` for a non-negative float `f` is truncation toward zero followed
  by the Go gc (amd64) out-of-range behaviour: conversion through `int64` and
  truncation to the low byte, i.e. `⌊f⌋ % 256`.  (The Go language spec leaves
  the out-of-range case implementation-dependent; the mainstream toolchain
  wraps, it does not saturate.)
* Go indexing `a[i]` panics out of bounds; the model totalises it with a
  default pixel and the theorems carry the in-bounds hypotheses under which
  the two agree.
* `math.Sqrt` is correctly rounded; on the integer arguments produced by the
  sobel stage (at most `2 * 1020 ^ 2`), truncating the rounded square root
  equals `Nat.sqrt`, so the sobel magnitude is modelled by `Nat.sqrt`.
  For the blur stage the exact floor of the square root of a non-negative
  rational is computed by `floorSqrtQ`.
-/

set_option maxHeartbeats 1600000

namespace Edgeefy

/-- The pixel type of the repository (`type GrayPixel struct { y uint8; a uint8 }`):
`y` is the gray intensity, `a` the alpha (opacity) byte. -/
structure GrayPixel where
  y : Nat
  a : Nat
deriving DecidableEq

/-- An image, `[][]GrayPixel`: a list of rows of pixels. -/
abbrev Image := List (List GrayPixel)

/-- A pixel coordinate, Go's `image.Point`: `x` is the column, `y` the row. -/
structure Pt where
  x : Nat
  y : Nat
deriving DecidableEq

/-- Default pixel used to totalise out-of-bounds reads (Go would panic there;
every theorem that depends on a read carries the in-bounds hypotheses). -/
def pix0 : GrayPixel := ⟨0, 0⟩

/-- Pixel lookup `pixels[y][x]` at integer coordinates. -/
def pixAt (pixels : Image) (y x : Int) : GrayPixel :=
  if 0 ≤ y ∧ 0 ≤ x then (pixels.getD y.toNat []).getD x.toNat pix0 else pix0

/-- Pixel lookup `pixels[y][x]` at natural-number coordinates. -/
def pixAtN (pixels : Image) (y x : Nat) : GrayPixel :=
  (pixels.getD y []).getD x pix0

/-- Source function `abs` on Go `int`. -/
def goAbs (x : Int) : Int :=
  if x < 0 then -x else x

/-- The inclusive integer range `[a, b]` traversed by the Go
`for i := a; i <= b; i++` loops. -/
def intRange (a b : Int) : List Int :=
  (List.range (b + 1 - a).toNat).map fun (k : Nat) => a + (k : Int)

/-- The border substitution that appears verbatim in both branches of
`getPixelVector` and in `getSorroundingPixelMatrix`: a raw index `i < 0` is
replaced by `pos + abs(i)`, a raw index `i ≥ size` by `pos - (i - size + 1)`,
an in-range index is kept. -/
def mirrorIdx (pos size i : Int) : Int :=
  if i < 0 then pos + goAbs i
  else if size ≤ i then pos - (i - size + 1)
  else i

/-- The `direction` enumeration of the source. -/
inductive Direction where
  | HORIZONTAL
  | VERTICAL
deriving DecidableEq

/-- Source `getPixelVector`: the `length` samples centered on
`(posY, posX)` along the given axis, with out-of-range raw indices
substituted per `mirrorIdx`.  The horizontal branch measures the row length
of row `posY`, the vertical branch the number of rows, as the source does. -/
def getPixelVector (pixels : Image) (posY posX : Nat) (length : Nat)
    (dir : Direction) : List ℚ :=
  let padding : Int := (length : Int) / 2
  match dir with
  | .HORIZONTAL =>
      let rowLength : Int := ((pixels.getD posY []).length : Int)
      (intRange ((posX : Int) - padding) ((posX : Int) + padding)).map fun i =>
        ((pixAt pixels (posY : Int) (mirrorIdx (posX : Int) rowLength i)).y : ℚ)
  | .VERTICAL =>
      let columnLength : Int := (pixels.length : Int)
      (intRange ((posY : Int) - padding) ((posY : Int) + padding)).map fun i =>
        ((pixAt pixels (mirrorIdx (posY : Int) columnLength i) (posX : Int)).y : ℚ)

/-- Source `innerProduct`: sum of componentwise products. -/
def innerProduct (pixels kernel : List ℚ) : ℚ :=
  (List.zipWith (· * ·) pixels kernel).sum

/-- Source `getPascalTriangleRow`: binomial coefficients `C(index, i)`. -/
def getPascalTriangleRow (index : Nat) : List ℚ :=
  (List.range (index + 1)).map fun i => ((Nat.choose index i : Nat) : ℚ)

/-- Source `normalizeVec`: scale by the reciprocal of the element sum. -/
def normalizeVec (v : List ℚ) : List ℚ :=
  v.map fun t => (1 / v.sum) * t

/-- Floor of the square root of a non-negative rational (the exact value of
`math.Sqrt` truncated toward zero when the float computation is exact):
`⌊√(n / d)⌋ = ⌊⌊√(n * d)⌋ / d⌋`. -/
def floorSqrtQ (q : ℚ) : Nat :=
  Nat.sqrt (q.num.toNat * q.den) / q.den

/-- Source `gaussianBlur`: a Pascal-triangle kernel of the requested size is
normalized, each pixel's horizontal and vertical neighbourhood vectors are
convolved with it, and the two sums are combined as
`uint8(sqrt(v * v + h * h))` with opacity `255`.  (The source panics on even
`kernelSize`; the claims only use odd sizes.) -/
def gaussianBlur (pixels : Image) (kernelSize : Nat) : Image :=
  let kernel := normalizeVec (getPascalTriangleRow (kernelSize - 1))
  (List.range pixels.length).map fun y =>
    (List.range (pixels.getD y []).length).map fun x =>
      let vecVert := getPixelVector pixels y x kernel.length .VERTICAL
      let vecHor := getPixelVector pixels y x kernel.length .HORIZONTAL
      let verticalSum := innerProduct vecVert kernel
      let horizontalSum := innerProduct vecHor kernel
      (⟨floorSqrtQ (verticalSum * verticalSum + horizontalSum * horizontalSum) % 256,
        255⟩ : GrayPixel)

/-- Source `getSorroundingPixelMatrix`: the `length × length` block of
intensities centered on `(posY, posX)`, row major, with the same border
substitution as `getPixelVector` but measured against the height and the
width of row `0`. -/
def getSorroundingPixelMatrix (pixels : Image) (posY posX : Nat)
    (length : Nat) : List Int :=
  let padding : Int := (length : Int) / 2
  let height : Int := (pixels.length : Int)
  let width : Int := ((pixels.getD 0 []).length : Int)
  (intRange ((posY : Int) - padding) ((posY : Int) + padding)).flatMap fun yy =>
    (intRange ((posX : Int) - padding) ((posX : Int) + padding)).map fun xx =>
      ((pixAt pixels (mirrorIdx (posY : Int) height yy)
        (mirrorIdx (posX : Int) width xx)).y : Int)

/-- Source `convolve`: componentwise product sum of two equally sized
row-major matrices. -/
def convolve (m1 m2 : List Int) : Int :=
  (List.zipWith (· * ·) m1 m2).sum

/-- Row-major values of the Sobel x-kernel. -/
def SOBEL_X : List Int := [1, 0, -1, 2, 0, -2, 1, 0, -1]

/-- Row-major values of the Sobel y-kernel. -/
def SOBEL_Y : List Int := [1, 2, 1, 0, 0, 0, -1, -2, -1]

/-- Source `sobel`, parametrised by `atanDeg`, the mathematical function
`t ↦ atan(t) * 180 / π` computed by the source in `float64` (its exact values
never matter for the claims, only that both pipeline runs share it).  For each
pixel the 3×3 neighbourhood is convolved with both kernels, the magnitude is
`uint8(sqrt(gx² + gy²))` with opacity `255`, and the direction is `0` whenever
`gx` or `gy` is zero and `atanDeg (gy / gx)` otherwise.  The source fills both
grids in one loop; the model builds each grid by the same iteration. -/
def sobelWith (atanDeg : ℚ → ℚ) (pixels : Image) : Image × List (List ℚ) :=
  ((List.range pixels.length).map fun y =>
      (List.range (pixels.getD y []).length).map fun x =>
        let pane := getSorroundingPixelMatrix pixels y x 3
        let gx := convolve pane SOBEL_X
        let gy := convolve pane SOBEL_Y
        (⟨Nat.sqrt (gx ^ 2 + gy ^ 2).toNat % 256, 255⟩ : GrayPixel),
    (List.range pixels.length).map fun y =>
      (List.range (pixels.getD y []).length).map fun x =>
        let pane := getSorroundingPixelMatrix pixels y x 3
        let gx := convolve pane SOBEL_X
        let gy := convolve pane SOBEL_Y
        if gx = 0 ∨ gy = 0 then 0 else atanDeg ((gy : ℚ) / (gx : ℚ)))

/-- Source `getPixelInGradientDirection`: the direction value selects one of
five neighbour-offset pairs; a direction outside `[-90, 90]` panics (modelled
as `none`).  Each of the four neighbour coordinates is then individually
replaced by the corresponding center coordinate when it falls outside the
image. -/
def getPixelInGradientDirection (pixels : Image) (directions : List (List ℚ))
    (x y : Nat) : Option (GrayPixel × GrayPixel) :=
  let height : Int := (pixels.length : Int)
  let width : Int := ((pixels.getD 0 []).length : Int)
  let dirVal : ℚ := (directions.getD y []).getD x 0
  let offs : Option (Int × Int × Int × Int) :=
    if -90 ≤ dirVal ∧ dirVal < -67.5 then
      some ((y : Int) - 1, (x : Int), (y : Int) + 1, (x : Int))
    else if -67.5 ≤ dirVal ∧ dirVal < -22.5 then
      some ((y : Int) - 1, (x : Int) + 1, (y : Int) + 1, (x : Int) - 1)
    else if -22.5 ≤ dirVal ∧ dirVal < 22.5 then
      some ((y : Int), (x : Int) + 1, (y : Int), (x : Int) - 1)
    else if 22.5 ≤ dirVal ∧ dirVal < 67.5 then
      some ((y : Int) + 1, (x : Int) + 1, (y : Int) - 1, (x : Int) - 1)
    else if 67.5 ≤ dirVal ∧ dirVal ≤ 90 then
      some ((y : Int) + 1, (x : Int), (y : Int) - 1, (x : Int))
    else none
  offs.map fun o =>
    let pY := if o.1 < 0 ∨ height ≤ o.1 then (y : Int) else o.1
    let pX := if o.2.1 < 0 ∨ width ≤ o.2.1 then (x : Int) else o.2.1
    let qY := if o.2.2.1 < 0 ∨ height ≤ o.2.2.1 then (y : Int) else o.2.2.1
    let qX := if o.2.2.2 < 0 ∨ width ≤ o.2.2.2 then (x : Int) else o.2.2.2
    (pixAt pixels pY pX, pixAt pixels qY qX)

/-- Collects a list of optional values, failing when any element fails: the
shape of a Go loop that can panic at any iteration. -/
def allSome {α : Type} : List (Option α) → Option (List α)
  | [] => some []
  | o :: rest => o.bind fun a => (allSome rest).map fun l => a :: l

/-- Source `nonMaximumSuppression`: mismatched dimensions panic (modelled as
`none`, as does an out-of-range direction value reached in the loop); a pixel
is blacked out (intensity `0`, opacity `255`) when either selected neighbour
exceeds it and kept unchanged otherwise. -/
def nonMaximumSuppression (pixels : Image) (directions : List (List ℚ)) :
    Option Image :=
  if pixels.length ≠ directions.length ∨
      (pixels.getD 0 []).length ≠ (directions.getD 0 []).length then none
  else
    allSome ((List.range pixels.length).map fun y =>
      allSome ((List.range ((pixels.getD 0 []).length)).map fun x =>
        let r := pixAtN pixels y x
        (getPixelInGradientDirection pixels directions x y).map fun pq =>
          if pq.1.y > r.y ∨ pq.2.y > r.y then (⟨0, 255⟩ : GrayPixel) else r))

/-- Source `maxPixelValue`: maximum intensity over the `height × width(row 0)`
index rectangle, starting from `0`. -/
def maxPixelValue (pixels : Image) : Nat :=
  (((List.range pixels.length).map fun y =>
      (List.range ((pixels.getD 0 []).length)).map fun x =>
        (pixAtN pixels y x).y).flatten).foldl max 0

/-- Source `doublethreshold`: pixels with intensity above `high` join the
strong set, pixels strictly between `low` and `high` join the weak set, all
other pixels are zeroed in the returned image (the source mutates `pixels` in
place and returns the two sets; the model returns the mutated image plus the
row-major strong and weak coordinate lists). -/
def doublethreshold (pixels : Image) (high low : ℚ) :
    Image × List Pt × List Pt :=
  let W := (pixels.getD 0 []).length
  let strong := (List.range pixels.length).flatMap fun y =>
    (List.range W).filterMap fun x =>
      if ((pixAtN pixels y x).y : ℚ) > high then some (⟨x, y⟩ : Pt) else none
  let weak := (List.range pixels.length).flatMap fun y =>
    (List.range W).filterMap fun x =>
      if high > ((pixAtN pixels y x).y : ℚ) ∧ ((pixAtN pixels y x).y : ℚ) > low
      then some (⟨x, y⟩ : Pt) else none
  let out : Image := (List.range pixels.length).map fun y =>
    (List.range (pixels.getD y []).length).map fun x =>
      let p := pixAtN pixels y x
      if x < W ∧ ¬((p.y : ℚ) > high) ∧
          ¬(high > (p.y : ℚ) ∧ (p.y : ℚ) > low) then
        (⟨0, p.a⟩ : GrayPixel)
      else p
  (out, strong, weak)

/-- Source `getAdjacentPixels`: loops `i` from `max(0, y-1)` up to but
excluding `min(height, y+1)` and `j` from `max(0, x-1)` up to but excluding
`min(width, x+1)`, adding `(j, i)` when `i ≠ y` and `j ≠ x`. -/
def getAdjacentPixels (pixels : Image) (x y : Nat) : List Pt :=
  let height := pixels.length
  let width := (pixels.getD 0 []).length
  let minX := x - 1
  let minY := y - 1
  let maxX := min width (x + 1)
  let maxY := min height (y + 1)
  (List.range' minY (maxY - minY)).flatMap fun i =>
    (List.range' minX (maxX - minX)).filterMap fun j =>
      if i ≠ y ∧ j ≠ x then some (⟨j, i⟩ : Pt) else none

/-- The image mutation `pixels[y][x].y = 0` performed by `edgeTracking`. -/
def blacken (pixels : Image) (y x : Nat) : Image :=
  pixels.set y ((pixels.getD y []).set x (⟨0, (pixAtN pixels y x).a⟩ : GrayPixel))

/-- One iteration of the `edgeTracking` loop: the weak pixel `w` is promoted
into the strong set when its neighbour set intersects the current strong set
(`strong.Intersect(neighbours).Cardinality() > 0`, a set `Add`), and its
pixel is blackened unconditionally. -/
def edgeTrackingStep (st : Image × List Pt) (w : Pt) : Image × List Pt :=
  let neighbours := getAdjacentPixels st.1 w.x w.y
  let strong :=
    if 0 < (neighbours.filter fun n => decide (n ∈ st.2)).length then
      if w ∈ st.2 then st.2 else w :: st.2
    else st.2
  (blacken st.1 w.y w.x, strong)

/-- Source `edgeTracking`, with the unspecified iteration order of the weak
set made explicit as the list `order`: the loop body is folded over the weak
pixels in that order, threading the mutated image and strong set. -/
def edgeTracking (pixels : Image) (strong order : List Pt) :
    Image × List Pt :=
  order.foldl edgeTrackingStep (pixels, strong)

/-- Source `CannyEdgeDetect`, with the weak-set iteration order exposed as a
function `pick` that arranges the row-major weak list into the order the set
iterator happens to produce: optional blur with kernel `5`, sobel, non
maximum suppression (which can fail, propagated as `none`), thresholds
`maxRatio * max` and `minRatio * max`, double thresholding and edge tracking;
the final image is returned, the sets are discarded. -/
def cannyWithPick (atanDeg : ℚ → ℚ) (pixels : Image) (blur : Bool)
    (minRatio maxRatio : ℚ) (pick : List Pt → List Pt) : Option Image :=
  let px1 := if blur then gaussianBlur pixels 5 else pixels
  let s := sobelWith atanDeg px1
  (nonMaximumSuppression s.1 s.2).map fun px3 =>
    let mx := maxPixelValue px3
    let high := maxRatio * (mx : ℚ)
    let low := minRatio * (mx : ℚ)
    let t := doublethreshold px3 high low
    (edgeTracking t.1 t.2.1 (pick t.2.2)).1

/-- The pipeline with the canonical (row-major) weak iteration order. -/
def CannyEdgeDetect (atanDeg : ℚ → ℚ) (pixels : Image) (blur : Bool)
    (minRatio maxRatio : ℚ) : Option Image :=
  cannyWithPick atanDeg pixels blur minRatio maxRatio id

/-! Helper lemmas shared by the claim theorems. -/

/-- Concrete values of `Nat.sqrt` via its characterisation (the recursive
computation of `Nat.sqrt` is not kernel-reducible). -/
theorem sqrt_val (n q : Nat) (h1 : q * q ≤ n) (h2 : n < (q + 1) * (q + 1)) :
    Nat.sqrt n = q :=
  (Nat.eq_sqrt.mpr ⟨h1, h2⟩).symm

/-- Indexing a `List.range`-built list with `getD`. -/
theorem getD_range_map {α : Type _} (f : Nat → α) {H y : Nat} (d : α)
    (hy : y < H) : ((List.range H).map f).getD y d = f y := by
  rw [List.getD_eq_getElem?_getD, List.getElem?_map, List.getElem?_range hy]
  rfl

/-- Indexing a grid built as a map over row and column ranges. -/
theorem pixAtN_grid (g : Nat → Nat → GrayPixel) (Wf : Nat → Nat) {H y x : Nat}
    (hy : y < H) (hx : x < Wf y) :
    pixAtN ((List.range H).map fun i => (List.range (Wf i)).map fun j => g i j)
      y x = g y x := by
  unfold pixAtN
  rw [getD_range_map _ _ hy, getD_range_map _ _ hx]

/-- The pixel the sobel stage writes at an in-bounds coordinate. -/
theorem sobel_pixel (f : ℚ → ℚ) (px : Image) {y x : Nat}
    (hy : y < px.length) (hx : x < (px.getD y []).length) :
    pixAtN ((sobelWith f px).1) y x =
      ⟨Nat.sqrt ((convolve (getSorroundingPixelMatrix px y x 3) SOBEL_X ^ 2 +
          convolve (getSorroundingPixelMatrix px y x 3) SOBEL_Y ^ 2).toNat) % 256,
        255⟩ :=
  pixAtN_grid _ _ hy hx

/-- The pixel the blur stage writes at an in-bounds coordinate. -/
theorem blur_pixel (px : Image) (K : Nat) {y x : Nat}
    (hy : y < px.length) (hx : x < (px.getD y []).length) :
    pixAtN (gaussianBlur px K) y x =
      (let kernel := normalizeVec (getPascalTriangleRow (K - 1))
       let vs := innerProduct (getPixelVector px y x kernel.length .VERTICAL) kernel
       let hs := innerProduct (getPixelVector px y x kernel.length .HORIZONTAL) kernel
       (⟨floorSqrtQ (vs * vs + hs * hs) % 256, 255⟩ : GrayPixel)) :=
  pixAtN_grid _ _ hy hx

/-- A constant image: `H` rows of `W` pixels of intensity `c` and opacity `a`. -/
def flatImage (H W c a : Nat) : Image :=
  List.replicate H (List.replicate W (⟨c, a⟩ : GrayPixel))

theorem flat_length (H W c a : Nat) : (flatImage H W c a).length = H := by
  simp [flatImage]

theorem flat_row {H y : Nat} (W c a : Nat) (hy : y < H) :
    (flatImage H W c a).getD y [] = List.replicate W (⟨c, a⟩ : GrayPixel) := by
  rw [flatImage, List.getD_eq_getElem?_getD, List.getElem?_replicate]
  simp [hy]

theorem flat_pixAt {H W : Nat} (c a : Nat) {yi xi : Int}
    (hy0 : 0 ≤ yi) (hyH : yi < (H : Int)) (hx0 : 0 ≤ xi) (hxW : xi < (W : Int)) :
    pixAt (flatImage H W c a) yi xi = ⟨c, a⟩ := by
  rw [pixAt, if_pos ⟨hy0, hx0⟩, flat_row W c a (show yi.toNat < H by omega),
    List.getD_eq_getElem?_getD, List.getElem?_replicate]
  simp [show xi.toNat < W by omega]

/-- The substituted index stays inside `[0, size)` whenever the center is in
bounds and the reach does not exceed `size - 1`. -/
theorem mirrorIdx_range (pos size pad i : Int) (hpos0 : 0 ≤ pos)
    (hpos : pos < size) (hpad : pad ≤ size - 1) (hlo : pos - pad ≤ i)
    (hhi : i ≤ pos + pad) :
    0 ≤ mirrorIdx pos size i ∧ mirrorIdx pos size i < size := by
  unfold mirrorIdx goAbs
  split_ifs <;> omega

theorem mem_intRange {a b i : Int} : i ∈ intRange a b ↔ a ≤ i ∧ i ≤ b := by
  simp only [intRange, List.mem_map, List.mem_range]
  constructor
  · rintro ⟨k, hk, rfl⟩
    omega
  · intro h
    exact ⟨(i - a).toNat, by omega, by omega⟩

theorem length_intRange (a b : Int) : (intRange a b).length = (b + 1 - a).toNat := by
  rw [intRange, List.length_map, List.length_range]

/-- On a constant image every sample vector is constant. -/
theorem getPixelVector_flat {H W c a y x K : Nat} (dir : Direction)
    (hy : y < H) (hx : x < W) (hodd : K % 2 = 1) (hW : K / 2 < W)
    (hH : K / 2 < H) :
    getPixelVector (flatImage H W c a) y x K dir = List.replicate K (c : ℚ) := by
  have hpad : ((K : Int) / 2) = ((K / 2 : Nat) : Int) := by omega
  refine List.eq_replicate_iff.mpr ⟨?_, ?_⟩
  · cases dir <;>
      simp only [getPixelVector, List.length_map, length_intRange, flat_row W c a hy,
        flat_length, List.length_replicate] <;> omega
  · intro q hq
    cases dir with
    | HORIZONTAL =>
        simp only [getPixelVector, flat_row W c a hy, List.length_replicate,
          List.mem_map] at hq
        obtain ⟨i, hi, rfl⟩ := hq
        rw [mem_intRange] at hi
        have hb := mirrorIdx_range (x : Int) (W : Int) ((K : Int) / 2) i
          (by omega) (by omega) (by omega) hi.1 hi.2
        rw [flat_pixAt c a (by omega) (by omega) hb.1 hb.2]
    | VERTICAL =>
        simp only [getPixelVector, flat_length, List.mem_map] at hq
        obtain ⟨i, hi, rfl⟩ := hq
        rw [mem_intRange] at hi
        have hb := mirrorIdx_range (y : Int) (H : Int) ((K : Int) / 2) i
          (by omega) (by omega) (by omega) hi.1 hi.2
        rw [flat_pixAt c a hb.1 hb.2 (by omega) (by omega)]

/-- The inner product of a constant vector with a kernel of the same length. -/
theorem innerProduct_replicate (c : ℚ) (kernel : List ℚ) (K : Nat)
    (h : kernel.length = K) :
    innerProduct (List.replicate K c) kernel = c * kernel.sum := by
  subst h
  induction kernel with
  | nil => simp [innerProduct]
  | cons kh kt ih =>
      simp only [innerProduct, List.length_cons, List.replicate_succ,
        List.zipWith_cons_cons, List.sum_cons] at ih ⊢
      rw [ih]
      ring

theorem sum_map_mul (r : ℚ) (v : List ℚ) :
    (v.map fun t => r * t).sum = r * v.sum := by
  induction v with
  | nil => simp
  | cons h t ih => simp [ih]; ring

theorem list_range_map_sum (m : Nat) (f : Nat → Nat) :
    ((List.range m).map f).sum = ∑ i in Finset.range m, f i := by
  induction m with
  | zero => simp
  | succ k ih =>
      rw [List.range_succ, List.map_append, List.sum_append,
        Finset.sum_range_succ, ih]
      simp

theorem pascal_sum (n : Nat) : (getPascalTriangleRow n).sum = ((2 ^ n : Nat) : ℚ) := by
  unfold getPascalTriangleRow
  rw [show ((List.range (n + 1)).map fun i => ((Nat.choose n i : Nat) : ℚ)) =
      (((List.range (n + 1)).map fun i => Nat.choose n i).map fun m => ((m : Nat) : ℚ))
    from by rw [List.map_map]; rfl]
  rw [← Nat.cast_list_sum, list_range_map_sum, Nat.sum_range_choose]

theorem normalizeVec_sum {v : List ℚ} (h : v.sum ≠ 0) : (normalizeVec v).sum = 1 := by
  rw [normalizeVec, sum_map_mul]
  field_simp

theorem kernel_length (n : Nat) :
    (normalizeVec (getPascalTriangleRow n)).length = n + 1 := by
  simp [normalizeVec, getPascalTriangleRow]

theorem floorSqrtQ_natCast (n : Nat) : floorSqrtQ ((n : Nat) : ℚ) = Nat.sqrt n := by
  simp [floorSqrtQ, Rat.num_natCast, Rat.den_natCast]

/-- Blurring a constant image gives the constant image of intensity
`Nat.sqrt (2 c²) % 256`, i.e. `⌊c √2⌋` wrapped to a byte, with opacity 255. -/
theorem blur_flat (H W c a K : Nat) (hodd : K % 2 = 1) (hW : K / 2 < W)
    (hH : K / 2 < H) :
    gaussianBlur (flatImage H W c a) K =
      flatImage H W (Nat.sqrt (2 * c ^ 2) % 256) 255 := by
  have hK1 : 1 ≤ K := by omega
  have hkl : (normalizeVec (getPascalTriangleRow (K - 1))).length = K := by
    rw [kernel_length]; omega
  have hsum : (normalizeVec (getPascalTriangleRow (K - 1))).sum = 1 := by
    apply normalizeVec_sum
    rw [pascal_sum]
    exact_mod_cast pow_ne_zero _ (two_ne_zero)
  unfold gaussianBlur
  simp only [hkl, flat_length]
  have hpix : ∀ y x, y < H → x < W →
      innerProduct (getPixelVector (flatImage H W c a) y x K .VERTICAL)
          (normalizeVec (getPascalTriangleRow (K - 1))) = (c : ℚ) ∧
      innerProduct (getPixelVector (flatImage H W c a) y x K .HORIZONTAL)
          (normalizeVec (getPascalTriangleRow (K - 1))) = (c : ℚ) := by
    intro y x hy hx
    constructor <;>
      rw [getPixelVector_flat _ hy hx hodd hW hH,
        innerProduct_replicate _ _ _ hkl, hsum, mul_one]
  have hval : ((c : ℚ) * c + (c : ℚ) * c) = ((2 * c ^ 2 : Nat) : ℚ) := by
    push_cast
    ring
  rw [show flatImage H W (Nat.sqrt (2 * c ^ 2) % 256) 255 =
      List.replicate H (List.replicate W ⟨Nat.sqrt (2 * c ^ 2) % 256, 255⟩)
    from rfl]
  refine List.eq_replicate_iff.mpr ⟨by simp, ?_⟩
  intro row hrow
  rw [List.mem_map] at hrow
  obtain ⟨y, hy, rfl⟩ := hrow
  rw [List.mem_range] at hy
  rw [flat_row W c a hy, List.length_replicate]
  refine List.eq_replicate_iff.mpr ⟨by simp, ?_⟩
  intro p hp
  rw [List.mem_map] at hp
  obtain ⟨x, hx, rfl⟩ := hp
  rw [List.mem_range] at hx
  rw [(hpix y x hy hx).1, (hpix y x hy hx).2, hval, floorSqrtQ_natCast]

theorem range'_two (a : Nat) : List.range' a 2 = [a, a + 1] := rfl

theorem range'_one (a : Nat) : List.range' a 1 = [a] := rfl

/-- Reading an updated list: the written value at the written index (when in
bounds), the old value elsewhere. -/
theorem getD_set {α : Type _} (l : List α) (n m : Nat) (a d : α) :
    (l.set n a).getD m d = if n = m ∧ n < l.length then a else l.getD m d := by
  rw [List.getD_eq_getElem?_getD, List.getElem?_set, List.getD_eq_getElem?_getD]
  by_cases h1 : n = m
  · subst h1
    by_cases h2 : n < l.length
    · simp [h2]
    · have hnone : l[n]? = none := List.getElem?_eq_none (by omega)
      simp [h2, hnone]
  · simp [h1]


/-- One mirrored sample of the 3×3 sobel neighbourhood: the pixel at offset
`(dy, dx)` from `(posY, posX)` after the border substitution against the
image height and the width of row `0`. -/
def sobelSample (px : Image) (posY posX dy dx : Int) : Int :=
  ((pixAt px (mirrorIdx posY (px.length : Int) (posY + dy))
    (mirrorIdx posX ((px.getD 0 []).length : Int) (posX + dx))).y : Int)

/-- The horizontal gradient as the spec writes it: the 3×3 neighbourhood
(drawn through the Sampler) convolved with `[[1,0,-1],[2,0,-2],[1,0,-1]]`,
spelled out as an explicit weighted sum of the nine mirrored samples. -/
def sobelGx (px : Image) (y x : Int) : Int :=
  sobelSample px y x (-1) (-1) - sobelSample px y x (-1) 1
    + 2 * sobelSample px y x 0 (-1) - 2 * sobelSample px y x 0 1
    + sobelSample px y x 1 (-1) - sobelSample px y x 1 1

/-- The vertical gradient as the spec writes it: the 3×3 neighbourhood
convolved with `[[1,2,1],[0,0,0],[-1,-2,-1]]`. -/
def sobelGy (px : Image) (y x : Int) : Int :=
  sobelSample px y x (-1) (-1) + 2 * sobelSample px y x (-1) 0
    + sobelSample px y x (-1) 1 - sobelSample px y x 1 (-1)
    - 2 * sobelSample px y x 1 0 - sobelSample px y x 1 1

theorem intRange_around (a : Int) :
    intRange (a - 1) (a + 1) = [a + -1, a + 0, a + 1] := by
  have h : (a + 1 + 1 - (a - 1)).toNat = 3 := by omega
  rw [intRange, h, show List.range 3 = [0, 1, 2] from rfl]
  simp
  omega

/-- The 3×3 neighbourhood matrix, written out sample by sample. -/
theorem pane_three (px : Image) (y x : Nat) :
    getSorroundingPixelMatrix px y x 3 =
      [sobelSample px y x (-1) (-1), sobelSample px y x (-1) 0,
       sobelSample px y x (-1) 1, sobelSample px y x 0 (-1),
       sobelSample px y x 0 0, sobelSample px y x 0 1,
       sobelSample px y x 1 (-1), sobelSample px y x 1 0,
       sobelSample px y x 1 1] := by
  simp only [getSorroundingPixelMatrix, sobelSample]
  rw [show ((3 : Nat) : Int) / 2 = 1 from rfl]
  rw [intRange_around, intRange_around]
  simp [List.flatMap_cons]

theorem convolve_pane_x (px : Image) (y x : Nat) :
    convolve (getSorroundingPixelMatrix px y x 3) SOBEL_X = sobelGx px y x := by
  rw [pane_three]
  simp only [convolve, SOBEL_X, List.zipWith_cons_cons, List.zipWith_nil_right,
    List.sum_cons, List.sum_nil, sobelGx]
  ring

theorem convolve_pane_y (px : Image) (y x : Nat) :
    convolve (getSorroundingPixelMatrix px y x 3) SOBEL_Y = sobelGy px y x := by
  rw [pane_three]
  simp only [convolve, SOBEL_Y, List.zipWith_cons_cons, List.zipWith_nil_right,
    List.sum_cons, List.sum_nil, sobelGy]
  ring

theorem mem_grid_filterMap {H W : Nat} (p : Nat → Nat → Prop)
    [instD : ∀ i j, Decidable (p i j)] (x y : Nat) :
    ((⟨x, y⟩ : Pt) ∈ (List.range H).flatMap fun i =>
        (List.range W).filterMap fun j =>
          if p i j then some (⟨j, i⟩ : Pt) else none) ↔
      y < H ∧ x < W ∧ p y x := by
  simp only [List.mem_flatMap, List.mem_filterMap, List.mem_range]
  constructor
  · rintro ⟨i, hi, j, hj, hsome⟩
    by_cases hp : p i j
    · rw [if_pos hp] at hsome
      obtain ⟨hjx, hiy⟩ := Pt.mk.inj (Option.some.inj hsome)
      subst hjx
      subst hiy
      exact ⟨hi, hj, hp⟩
    · rw [if_neg hp] at hsome
      cases hsome
  · rintro ⟨hy, hx, hp⟩
    exact ⟨y, hy, x, hx, by rw [if_pos hp]⟩


def nmsOffsets (d : ℚ) : Option ((Int × Int) × (Int × Int)) :=
  if -90 ≤ d ∧ d < -67.5 then some ((-1, 0), (1, 0))
  else if -67.5 ≤ d ∧ d < -22.5 then some ((-1, 1), (1, -1))
  else if -22.5 ≤ d ∧ d < 22.5 then some ((0, 1), (0, -1))
  else if 22.5 ≤ d ∧ d < 67.5 then some ((1, 1), (-1, -1))
  else if 67.5 ≤ d ∧ d ≤ 90 then some ((1, 0), (-1, 0))
  else none

def fallbackCoord (size center v : Int) : Int :=
  if v < 0 ∨ size ≤ v then center else v


theorem Pt_eq_iff (p q : Pt) : p = q ↔ p.x = q.x ∧ p.y = q.y := by
  constructor
  · rintro rfl
    exact ⟨rfl, rfl⟩
  · rintro ⟨h1, h2⟩
    cases p
    cases q
    cases h1
    cases h2
    rfl

def blackenAll (px : Image) (o : List Pt) : Image :=
  o.foldl (fun im w => blacken im w.y w.x) px

theorem edgeTracking_fst (o : List Pt) : ∀ (px : Image) (s : List Pt),
    (edgeTracking px s o).1 = blackenAll px o := by
  induction o with
  | nil =>
      intro px s
      rfl
  | cons w t ih =>
      intro px s
      simp only [edgeTracking, List.foldl_cons, blackenAll] at ih ⊢
      exact ih _ _

theorem blacken_length (px : Image) (y x : Nat) :
    (blacken px y x).length = px.length := by
  simp [blacken]

theorem blacken_row_length (px : Image) (y x i : Nat) :
    ((blacken px y x).getD i []).length = (px.getD i []).length := by
  rw [blacken, getD_set]
  split_ifs with h
  · rw [List.length_set, h.1]
  · rfl

theorem pixAtN_blacken (px : Image) (y x i j : Nat) :
    pixAtN (blacken px y x) i j =
      if i = y ∧ j = x ∧ y < px.length ∧ x < (px.getD y []).length then
        ⟨0, (pixAtN px y x).a⟩
      else pixAtN px i j := by
  unfold pixAtN blacken
  rw [getD_set]
  by_cases h1 : y = i ∧ y < px.length
  · rw [if_pos h1, getD_set]
    obtain ⟨rfl, hlen⟩ := h1
    by_cases h2 : x = j ∧ x < (px.getD y []).length
    · rw [if_pos h2]
      obtain ⟨rfl, hxl⟩ := h2
      rw [if_pos ⟨rfl, rfl, hlen, hxl⟩]
      rfl
    · rw [if_neg h2, if_neg]
      intro hc
      exact h2 ⟨hc.2.1.symm, hc.2.2.2⟩
  · rw [if_neg h1, if_neg]
    intro hc
    exact h1 ⟨hc.1.symm, hc.2.2.1⟩

theorem blackenAll_length (o : List Pt) : ∀ px : Image,
    (blackenAll px o).length = px.length := by
  induction o with
  | nil =>
      intro px
      rfl
  | cons w t ih =>
      intro px
      rw [show blackenAll px (w :: t) = blackenAll (blacken px w.y w.x) t from rfl,
        ih, blacken_length]

theorem blackenAll_row_length (o : List Pt) : ∀ (px : Image) (i : Nat),
    ((blackenAll px o).getD i []).length = (px.getD i []).length := by
  induction o with
  | nil =>
      intro px i
      rfl
  | cons w t ih =>
      intro px i
      rw [show blackenAll px (w :: t) = blackenAll (blacken px w.y w.x) t from rfl,
        ih, blacken_row_length]

theorem pixAtN_blackenAll (o : List Pt) : ∀ (px : Image) (i j : Nat),
    pixAtN (blackenAll px o) i j =
      if (⟨j, i⟩ : Pt) ∈ o ∧ i < px.length ∧ j < (px.getD i []).length then
        ⟨0, (pixAtN px i j).a⟩
      else pixAtN px i j := by
  induction o with
  | nil =>
      intro px i j
      simp [blackenAll]
  | cons w t ih =>
      intro px i j
      obtain ⟨wx, wy⟩ := w
      rw [show blackenAll px (⟨wx, wy⟩ :: t) = blackenAll (blacken px wy wx) t from rfl,
        ih, blacken_length, blacken_row_length, pixAtN_blacken]
      by_cases hb : i < px.length ∧ j < (px.getD i []).length
      · by_cases hmw : i = wy ∧ j = wx
        · obtain ⟨rfl, rfl⟩ := hmw
          have hC : i = i ∧ j = j ∧ i < px.length ∧ j < (px.getD i []).length :=
            ⟨rfl, rfl, hb.1, hb.2⟩
          have hR : (⟨j, i⟩ : Pt) ∈ (⟨j, i⟩ : Pt) :: t ∧ i < px.length ∧
              j < (px.getD i []).length :=
            ⟨List.mem_cons_self _ _, hb.1, hb.2⟩
          rw [if_pos hC, if_pos hR]
          split_ifs <;> rfl
        · have hCneg : ¬(i = wy ∧ j = wx ∧ wy < px.length ∧
              wx < (px.getD wy []).length) :=
            fun hc => hmw ⟨hc.1, hc.2.1⟩
          rw [if_neg hCneg]
          by_cases hm : (⟨j, i⟩ : Pt) ∈ t
          · have h1 : (⟨j, i⟩ : Pt) ∈ t ∧ i < px.length ∧
                j < (px.getD i []).length := ⟨hm, hb.1, hb.2⟩
            have h2 : (⟨j, i⟩ : Pt) ∈ (⟨wx, wy⟩ : Pt) :: t ∧ i < px.length ∧
                j < (px.getD i []).length :=
              ⟨List.mem_cons_of_mem _ hm, hb.1, hb.2⟩
            rw [if_pos h1, if_pos h2]
          · have h1 : ¬((⟨j, i⟩ : Pt) ∈ t ∧ i < px.length ∧
                j < (px.getD i []).length) := fun hc => hm hc.1
            have h2 : ¬((⟨j, i⟩ : Pt) ∈ (⟨wx, wy⟩ : Pt) :: t ∧ i < px.length ∧
                j < (px.getD i []).length) := by
              rintro ⟨hc1, hc2, hc3⟩
              rcases List.mem_cons.mp hc1 with hc | hc
              · rw [Pt_eq_iff] at hc
                exact hmw ⟨hc.2, hc.1⟩
              · exact hm hc
            rw [if_neg h1, if_neg h2]
      · have hCneg : ¬(i = wy ∧ j = wx ∧ wy < px.length ∧
            wx < (px.getD wy []).length) := by
          rintro ⟨rfl, rfl, h3, h4⟩
          exact hb ⟨h3, h4⟩
        have h1 : ¬((⟨j, i⟩ : Pt) ∈ t ∧ i < px.length ∧
            j < (px.getD i []).length) := fun hc => hb ⟨hc.2.1, hc.2.2⟩
        have h2 : ¬((⟨j, i⟩ : Pt) ∈ (⟨wx, wy⟩ : Pt) :: t ∧ i < px.length ∧
            j < (px.getD i []).length) := fun hc => hb ⟨hc.2.1, hc.2.2⟩
        rw [if_neg hCneg, if_neg h1, if_neg h2]

theorem image_ext (im1 im2 : Image) (h1 : im1.length = im2.length)
    (h2 : ∀ i, i < im1.length → (im1.getD i []).length = (im2.getD i []).length)
    (h3 : ∀ i j, i < im1.length → j < (im1.getD i []).length →
      pixAtN im1 i j = pixAtN im2 i j) :
    im1 = im2 := by
  apply List.ext_getElem h1
  intro i hi1 hi2
  rw [← List.getD_eq_getElem im1 [] hi1, ← List.getD_eq_getElem im2 [] hi2]
  apply List.ext_getElem (h2 i hi1)
  intro j hj1 hj2
  have hval := h3 i j hi1 hj1
  unfold pixAtN at hval
  rw [List.getD_eq_getElem _ pix0 hj1, List.getD_eq_getElem _ pix0 hj2] at hval
  exact hval

theorem blackenAll_congr (px : Image) (o1 o2 : List Pt)
    (h : ∀ p, p ∈ o1 ↔ p ∈ o2) : blackenAll px o1 = blackenAll px o2 := by
  apply image_ext
  · rw [blackenAll_length, blackenAll_length]
  · intro i hi
    rw [blackenAll_row_length, blackenAll_row_length]
  · intro i j hi hj
    rw [pixAtN_blackenAll, pixAtN_blackenAll]
    by_cases hm : (⟨j, i⟩ : Pt) ∈ o2
    · have hm1 : (⟨j, i⟩ : Pt) ∈ o1 := (h _).2 hm
      simp [hm, hm1]
    · have hm1 : (⟨j, i⟩ : Pt) ∉ o1 := fun hc => hm ((h _).1 hc)
      simp [hm, hm1]

/-! Concrete images used by the theorems below. -/

/-- A 1 × 2 image: a bright pixel at `(0, 0)` next to a dimmer one at `(1, 0)`. -/
def img12 : Image := [[⟨200, 255⟩, ⟨100, 255⟩]]

/-- A 3 × 3 image of constant intensity `50`. -/
def img3 : Image := List.replicate 3 (List.replicate 3 ⟨50, 255⟩)

/-- A 3 × 3 image whose left column is `255` and the rest `0`. -/
def imgL : Image := List.replicate 3 [⟨255, 255⟩, ⟨0, 255⟩, ⟨0, 255⟩]

/-- A 2 × 2 image used for the non-maximum-suppression border analysis. -/
def pix2 : Image := [[⟨0, 255⟩, ⟨0, 255⟩], [⟨5, 255⟩, ⟨9, 255⟩]]

/-- Directions for `pix2`: `45°` at `(x, y) = (0, 1)` and `0°` elsewhere. -/
def dirs2 : List (List ℚ) := [[0, 0], [45, 0]]

/-- C1: evaluating the code at the failing input.  In the 1 × 2 image
`img12`, the pixel `(0, 0)` is strong and `(1, 0)` is weak; the weak pixel's
immediate left neighbour is strong, so the claim (and the spec) promote it,
but `getAdjacentPixels` returns no neighbour at all for `(1, 0)` (the loops
stop short of the row/column of the center and the guard also drops any
candidate sharing a row or column with it), so `edgeTracking` leaves the
strong set unchanged and merely blackens the weak pixel. -/
theorem C1_left_neighbor_not_promoted :
    edgeTracking img12 [⟨0, 0⟩] [⟨1, 0⟩] =
      ([[⟨200, 255⟩, ⟨0, 255⟩]], [⟨0, 0⟩]) ∧
    getAdjacentPixels img12 1 0 = [] := by
  constructor <;> decide

/-- C2: evaluating the code at the failing input.  For the single row
`[10, 20, 30, 40]` with center column `1` and length `5`, the raw coordinate
`-1` lies distance `1` beyond the left border, so the claimed mirror policy
returns column `1` (value `20`); the code instead returns
`pixels[posY][posX + abs(-1)]`, i.e. column `2` (value `30`). -/
theorem C2_not_border_mirror :
    getPixelVector [[⟨10, 255⟩, ⟨20, 255⟩, ⟨30, 255⟩, ⟨40, 255⟩]] 0 1 5
        .HORIZONTAL = [30, 10, 20, 30, 40] ∧
    (pixAtN [[⟨10, 255⟩, ⟨20, 255⟩, ⟨30, 255⟩, ⟨40, 255⟩]] 0 1).y = 20 := by
  constructor <;> decide

/-- C3 counterexample: blurring the flat 1 × 1 image of intensity `100` with
the odd kernel size `1` yields intensity `⌊100·√2⌋ = 141`, not `100`: the
blur stage is not the identity on constant images. -/
theorem C3_flat_blur_not_identity :
    (pixAtN (gaussianBlur [[⟨100, 7⟩]] 1) 0 0).y ≠ 100 := by
  have h : gaussianBlur (flatImage 1 1 100 7) 1 =
      flatImage 1 1 (Nat.sqrt (2 * 100 ^ 2) % 256) 255 :=
    blur_flat 1 1 100 7 1 (by decide) (by decide) (by decide)
  have hf : flatImage 1 1 100 7 = [[⟨100, 7⟩]] := rfl
  rw [← hf, h]
  rw [show (2 * 100 ^ 2 : Nat) = 20000 from by norm_num,
    sqrt_val 20000 141 (by norm_num) (by norm_num)]
  simp [flatImage, pixAtN, pix0]

/-- C4 counterexample: on `imgL` the center pixel has `Gx = 1020` and
`Gy = 0`, so `sqrt(Gx² + Gy²) = 1020 > 255`; the stored intensity is
`1020 % 256 = 252`, not the claimed clamp value `255`. -/
theorem C4_magnitude_not_clamped :
    convolve (getSorroundingPixelMatrix imgL 1 1 3) SOBEL_X = 1020 ∧
    convolve (getSorroundingPixelMatrix imgL 1 1 3) SOBEL_Y = 0 ∧
    (pixAtN ((sobelWith (fun _ => 0) imgL).1) 1 1).y = 252 := by
  refine ⟨by decide, by decide, ?_⟩
  rw [sobel_pixel (fun _ => 0) imgL (by decide) (by decide)]
  rw [show convolve (getSorroundingPixelMatrix imgL 1 1 3) SOBEL_X = 1020 from by decide,
    show convolve (getSorroundingPixelMatrix imgL 1 1 3) SOBEL_Y = 0 from by decide]
  rw [show ((1020 : Int) ^ 2 + (0 : Int) ^ 2).toNat = 1040400 from by decide,
    sqrt_val 1040400 1020 (by norm_num) (by norm_num)]

/-- C5 counterexample: blurring a pixel whose opacity is `7` produces a pixel
of opacity `255`: opacity is not copied through. -/
theorem C5_opacity_not_copied :
    (pixAtN (gaussianBlur [[⟨5, 7⟩]] 1) 0 0).a ≠ 7 := by
  decide

/-- C6 counterexample: with `high = 10`, `low = 1` and one pixel of intensity
exactly `10 = high`, the claim classifies the pixel as weak; the code's weak
condition is strict on both sides, so the weak set is empty and the pixel is
zeroed. -/
theorem C6_exactly_high_is_zeroed :
    (doublethreshold [[⟨10, 0⟩]] 10 1).2.2 = [] ∧
    pixAtN (doublethreshold [[⟨10, 0⟩]] 10 1).1 0 0 = ⟨0, 0⟩ := by
  constructor <;> decide

/-- C7 counterexample: at `(x, y) = (0, 1)` of the 2 × 2 image `pix2` with
direction `45°`, the selected neighbour offset `(+1, +1)` lands outside the
image (row `2`), yet the substituted neighbour is `pixels[1][1] = (9, 255)`
(only the row was replaced by the center's), not the center pixel
`pixels[1][0] = (5, 255)`; since `9 > 5` that neighbour suppresses the center,
which the claim says can never happen. -/
theorem C7_partial_fallback_suppresses :
    getPixelInGradientDirection pix2 dirs2 0 1 =
      some (⟨9, 255⟩, ⟨0, 255⟩) ∧
    pixAtN pix2 1 0 = ⟨5, 255⟩ ∧
    nonMaximumSuppression pix2 dirs2 =
      some [[⟨0, 255⟩, ⟨0, 255⟩], [⟨0, 255⟩, ⟨9, 255⟩]] := by
  refine ⟨?_, by decide, ?_⟩
  · norm_num [getPixelInGradientDirection, pix2, dirs2, pixAt, pix0]
  · norm_num [nonMaximumSuppression, pix2, dirs2, getPixelInGradientDirection,
      pixAt, pixAtN, pix0, List.range_succ, allSome]

/-- C8 counterexample: in `img3` with original strong set `{(0, 0)}` and weak
pixels `(1, 1)` and `(2, 2)` iterated in that order, the pixel `(2, 2)` has no
neighbour in the original strong set (its only computed neighbour is
`(1, 1)`), yet it ends up promoted — the weak pixel `(1, 1)`, promoted earlier
in the same pass, caused the promotion, which the claim rules out. -/
theorem C8_transitive_promotion :
    getAdjacentPixels img3 2 2 = [⟨1, 1⟩] ∧
    (⟨1, 1⟩ : Pt) ∉ ([⟨0, 0⟩] : List Pt) ∧
    (⟨2, 2⟩ : Pt) ∈ (edgeTracking img3 [⟨0, 0⟩] [⟨1, 1⟩, ⟨2, 2⟩]).2 := by
  refine ⟨by decide, by decide, by decide⟩

/-- C8 (amended): promotion decisions are taken against the strong set as
mutated so far in the pass, so a weak pixel promoted earlier can cause a
later promotion, and the resulting strong set depends on the iteration order
over the weak set: iterating `(1, 1)` before `(2, 2)` promotes both, the
reverse order promotes only `(1, 1)`. -/
theorem C8_strong_set_order_dependent :
    (⟨2, 2⟩ : Pt) ∈ (edgeTracking img3 [⟨0, 0⟩] [⟨1, 1⟩, ⟨2, 2⟩]).2 ∧
    (⟨2, 2⟩ : Pt) ∉ (edgeTracking img3 [⟨0, 0⟩] [⟨2, 2⟩, ⟨1, 1⟩]).2 := by
  constructor <;> decide


/-- C3 (amended): blurring a constant image of intensity `c` and any opacity
with an odd kernel size `K` whose reach fits in the image (`K / 2` less than
the width and the height; larger kernels index out of bounds and panic in the
source) yields the constant image of intensity `Nat.sqrt (2 * c ^ 2) % 256`,
i.e. `⌊c·√2⌋` wrapped to a byte, and opacity `255` — equal to the input
intensity only for `c = 0`, so the blur stage is not a no-op on flat images. -/
theorem C3_flat_blur_value (H W c a K : Nat) (hodd : K % 2 = 1)
    (hW : K / 2 < W) (hH : K / 2 < H) :
    gaussianBlur (flatImage H W c a) K =
      flatImage H W (Nat.sqrt (2 * c ^ 2) % 256) 255 :=
  blur_flat H W c a K hodd hW hH

/-- Witness for C3 (amended) at a concrete input. -/
theorem C3_flat_blur_value_witness :
    (3 % 2 = 1 ∧ 3 / 2 < 3 ∧ 3 / 2 < 3) ∧
    gaussianBlur (flatImage 3 3 100 7) 3 =
      flatImage 3 3 (Nat.sqrt (2 * 100 ^ 2) % 256) 255 :=
  ⟨⟨by decide, by decide, by decide⟩,
    C3_flat_blur_value 3 3 100 7 3 (by decide) (by decide) (by decide)⟩

/-- C5 (amended): the blur and sobel stages write the constant `255` as every
output pixel's opacity, whatever the input pixel's opacity was; opacity is
passed through unchanged only when it already equals `255`. -/
theorem C5_opacity_always_255 (f : ℚ → ℚ) (px : Image) (K y x : Nat)
    (hy : y < px.length) (hx : x < (px.getD y []).length) :
    (pixAtN (gaussianBlur px K) y x).a = 255 ∧
    (pixAtN ((sobelWith f px).1) y x).a = 255 := by
  rw [blur_pixel px K hy hx, sobel_pixel f px hy hx]
  exact ⟨rfl, rfl⟩

/-- Witness for C5 (amended) at a concrete input. -/
theorem C5_opacity_always_255_witness :
    (0 < ([[⟨5, 7⟩]] : Image).length ∧
      0 < (([[⟨5, 7⟩]] : Image).getD 0 []).length) ∧
    ((pixAtN (gaussianBlur [[⟨5, 7⟩]] 1) 0 0).a = 255 ∧
      (pixAtN ((sobelWith (fun _ => 0) [[⟨5, 7⟩]]).1) 0 0).a = 255) :=
  ⟨⟨by decide, by decide⟩,
    C5_opacity_always_255 (fun _ => 0) [[⟨5, 7⟩]] 1 0 0 (by decide) (by decide)⟩

/-- C10: for an in-bounds coordinate, the neighbour list computed by
`getAdjacentPixels` is exactly the single upper-left diagonal neighbour
`(x - 1, y - 1)` when `x` and `y` are both positive and is empty when `x = 0`
or `y = 0`: the loops run only up to the center coordinate and the guard
drops every candidate sharing its row or its column. -/
theorem C10_adjacent_upper_left_only (pixels : Image) (x y : Nat)
    (hx : x < (pixels.getD 0 []).length) (hy : y < pixels.length) :
    getAdjacentPixels pixels x y =
      if x = 0 ∨ y = 0 then [] else [⟨x - 1, y - 1⟩] := by
  simp only [getAdjacentPixels]
  have hmx : min ((pixels.getD 0 []).length) (x + 1) = x + 1 := by omega
  have hmy : min (pixels.length) (y + 1) = y + 1 := by omega
  rw [hmx, hmy]
  rcases x with _ | x <;> rcases y with _ | y
  · rw [show (0 + 1) - (0 - 1) = 1 from rfl]
    simp [range'_one]
  · rw [show (Nat.succ y + 1) - (Nat.succ y - 1) = 2 from by omega,
      show (0 + 1) - (0 - 1) = 1 from rfl, range'_one, range'_two]
    simp
  · rw [show (0 + 1) - (0 - 1) = 1 from rfl,
      show (Nat.succ x + 1) - (Nat.succ x - 1) = 2 from by omega, range'_one,
      range'_two]
    simp
  · rw [show (Nat.succ y + 1) - (Nat.succ y - 1) = 2 from by omega,
      show (Nat.succ x + 1) - (Nat.succ x - 1) = 2 from by omega, range'_two,
      range'_two]
    simp [List.filterMap_cons]

/-- Witness for C10 at a concrete input. -/
theorem C10_adjacent_upper_left_only_witness :
    (2 < (img3.getD 0 []).length ∧ 1 < img3.length) ∧
    getAdjacentPixels img3 2 1 = if 2 = 0 ∨ 1 = 0 then [] else [⟨1, 0⟩] :=
  ⟨⟨by decide, by decide⟩,
    C10_adjacent_upper_left_only img3 2 1 (by decide) (by decide)⟩


/-- C4 (amended): the magnitude the sobel stage stores at an in-bounds pixel
is `⌊sqrt(Gx² + Gy²)⌋` reduced modulo 256 — the Go float-to-uint8 conversion
truncates and wraps on the mainstream toolchain, it does not clamp — where
`Gx` and `Gy` are the convolutions of the mirrored 3×3 neighbourhood with the
two fixed kernels; the stored value coincides with the claimed clamped value
only while the root does not exceed 255. -/
theorem C4_sobel_formula (f : ℚ → ℚ) (px : Image) (y x : Nat)
    (hy : y < px.length) (hx : x < (px.getD y []).length) :
    (pixAtN ((sobelWith f px).1) y x).y =
      Nat.sqrt ((sobelGx px y x ^ 2 + sobelGy px y x ^ 2).toNat) % 256 := by
  rw [sobel_pixel f px hy hx]
  rw [convolve_pane_x, convolve_pane_y]

/-- Witness for C4 (amended) at a concrete input. -/
theorem C4_sobel_formula_witness :
    (1 < imgL.length ∧ 1 < (imgL.getD 1 []).length) ∧
    (pixAtN ((sobelWith (fun _ => 0) imgL).1) 1 1).y =
      Nat.sqrt ((sobelGx imgL ((1 : Nat) : Int) ((1 : Nat) : Int) ^ 2 +
        sobelGy imgL ((1 : Nat) : Int) ((1 : Nat) : Int) ^ 2).toNat) % 256 :=
  ⟨⟨by decide, by decide⟩,
    C4_sobel_formula (fun _ => 0) imgL 1 1 (by decide) (by decide)⟩


/-- C6 (amended): for every in-bounds pixel, membership in the strong set is
exactly `intensity > high` and membership in the weak set is exactly
`low < intensity < high` — strict on both sides, so a pixel with intensity
exactly equal to `high` is zeroed and belongs to neither set; the returned
image keeps the pixel when it joined either set and zeroes it (keeping its
opacity) otherwise. -/
theorem C6_threshold_spec (pixels : Image) (high low : ℚ) (x y : Nat)
    (hy : y < pixels.length) (hx : x < (pixels.getD 0 []).length)
    (hrow : x < (pixels.getD y []).length) :
    ((⟨x, y⟩ : Pt) ∈ (doublethreshold pixels high low).2.1 ↔
      ((pixAtN pixels y x).y : ℚ) > high) ∧
    ((⟨x, y⟩ : Pt) ∈ (doublethreshold pixels high low).2.2 ↔
      (high > ((pixAtN pixels y x).y : ℚ) ∧ ((pixAtN pixels y x).y : ℚ) > low)) ∧
    pixAtN (doublethreshold pixels high low).1 y x =
      (if ((pixAtN pixels y x).y : ℚ) > high ∨
          (high > ((pixAtN pixels y x).y : ℚ) ∧ ((pixAtN pixels y x).y : ℚ) > low)
        then pixAtN pixels y x
        else ⟨0, (pixAtN pixels y x).a⟩) := by
  refine ⟨?_, ?_, ?_⟩
  · simp only [doublethreshold]
    rw [mem_grid_filterMap (fun i j => ((pixAtN pixels i j).y : ℚ) > high) x y]
    have hx2 : x < (pixels[0]?.getD []).length := by
      rwa [List.getD_eq_getElem?_getD] at hx
    simp [hy, hx2]
  · simp only [doublethreshold]
    rw [mem_grid_filterMap
      (fun i j => high > ((pixAtN pixels i j).y : ℚ) ∧
        ((pixAtN pixels i j).y : ℚ) > low) x y]
    have hx2 : x < (pixels[0]?.getD []).length := by
      rwa [List.getD_eq_getElem?_getD] at hx
    simp [hy, hx2]
  · simp only [doublethreshold]
    rw [pixAtN_grid _ _ hy hrow]
    split_ifs <;> tauto

/-- Witness for C6 (amended) at a concrete input. -/
theorem C6_threshold_spec_witness :
    (0 < ([[⟨5, 9⟩, ⟨12, 9⟩]] : Image).length ∧
      1 < (([[⟨5, 9⟩, ⟨12, 9⟩]] : Image).getD 0 []).length ∧
      1 < (([[⟨5, 9⟩, ⟨12, 9⟩]] : Image).getD 0 []).length) ∧
    (((⟨1, 0⟩ : Pt) ∈ (doublethreshold [[⟨5, 9⟩, ⟨12, 9⟩]] 10 1).2.1 ↔
      ((pixAtN [[⟨5, 9⟩, ⟨12, 9⟩]] 0 1).y : ℚ) > 10) ∧
    ((⟨1, 0⟩ : Pt) ∈ (doublethreshold [[⟨5, 9⟩, ⟨12, 9⟩]] 10 1).2.2 ↔
      ((10 : ℚ) > ((pixAtN [[⟨5, 9⟩, ⟨12, 9⟩]] 0 1).y : ℚ) ∧
        ((pixAtN [[⟨5, 9⟩, ⟨12, 9⟩]] 0 1).y : ℚ) > 1)) ∧
    pixAtN (doublethreshold [[⟨5, 9⟩, ⟨12, 9⟩]] 10 1).1 0 1 =
      (if ((pixAtN [[⟨5, 9⟩, ⟨12, 9⟩]] 0 1).y : ℚ) > 10 ∨
          ((10 : ℚ) > ((pixAtN [[⟨5, 9⟩, ⟨12, 9⟩]] 0 1).y : ℚ) ∧
            ((pixAtN [[⟨5, 9⟩, ⟨12, 9⟩]] 0 1).y : ℚ) > 1)
        then pixAtN [[⟨5, 9⟩, ⟨12, 9⟩]] 0 1
        else ⟨0, (pixAtN [[⟨5, 9⟩, ⟨12, 9⟩]] 0 1).a⟩)) :=
  ⟨⟨by decide, by decide, by decide⟩,
    C6_threshold_spec [[⟨5, 9⟩, ⟨12, 9⟩]] 10 1 1 0 (by decide) (by decide)
      (by decide)⟩

/-- C7 (amended): the gradient-direction neighbour lookup applies the border
fallback per coordinate, not per neighbour: the direction value selects the
offset pairs of the spec table, and each of the four coordinates is replaced
by the corresponding center coordinate exactly when that coordinate leaves
the image — so a diagonal neighbour with only one coordinate out of range
becomes a genuine other pixel, the full center pixel is substituted only when
every offset coordinate is out of range. -/
theorem C7_per_axis_fallback (pixels : Image) (directions : List (List ℚ))
    (x y : Nat) :
    getPixelInGradientDirection pixels directions x y =
      (nmsOffsets ((directions.getD y []).getD x 0)).map fun o =>
        (pixAt pixels
          (fallbackCoord (pixels.length : Int) (y : Int) ((y : Int) + o.1.1))
          (fallbackCoord ((pixels.getD 0 []).length : Int) (x : Int)
            ((x : Int) + o.1.2)),
         pixAt pixels
          (fallbackCoord (pixels.length : Int) (y : Int) ((y : Int) + o.2.1))
          (fallbackCoord ((pixels.getD 0 []).length : Int) (x : Int)
            ((x : Int) + o.2.2))) := by
  simp only [getPixelInGradientDirection, nmsOffsets, fallbackCoord]
  split_ifs <;> rfl

/-- C9: the final image of the pipeline does not depend on the iteration
order over the weak set: any two order choices that enumerate the same
coordinates produce identical output images (the strong-set bookkeeping is
discarded, and the image effect of edge tracking blackens every weak pixel
unconditionally). -/
theorem C9_pipeline_order_independent (f : ℚ → ℚ) (pixels : Image)
    (blurFlag : Bool) (minRatio maxRatio : ℚ) (pick1 pick2 : List Pt → List Pt)
    (h : ∀ (l : List Pt) (p : Pt), p ∈ pick1 l ↔ p ∈ pick2 l) :
    cannyWithPick f pixels blurFlag minRatio maxRatio pick1 =
      cannyWithPick f pixels blurFlag minRatio maxRatio pick2 := by
  simp only [cannyWithPick]
  apply Option.map_congr
  intro px3 hpx3
  rw [edgeTracking_fst, edgeTracking_fst]
  exact blackenAll_congr _ _ _ (h _)

/-- Witness for C9 at a concrete input: iterating the weak set in row-major
order or in reverse produces the same image. -/
theorem C9_pipeline_order_independent_witness :
    (∀ (l : List Pt) (p : Pt), p ∈ id l ↔ p ∈ l.reverse) ∧
    cannyWithPick (fun _ => 0) img3 false (1 / 5) (3 / 5) id =
      cannyWithPick (fun _ => 0) img3 false (1 / 5) (3 / 5)
        (fun l => l.reverse) := by
  have hmem : ∀ (l : List Pt) (p : Pt), p ∈ id l ↔ p ∈ l.reverse := by
    intro l p
    simp
  exact ⟨hmem, C9_pipeline_order_independent (fun _ => 0) img3 false (1 / 5)
    (3 / 5) id (fun l => l.reverse) hmem⟩

end Edgeefy
